import Mathlib

/-
Shallow embedding of the complex linear-algebra core of the
`quantum_computing_studies` repository (Rust), together with proofs of the
specification claims.

Modelling conventions:
* Rust `f64` values are modelled as real numbers (`ℝ`).  All the claims
  below are exact algebraic identities of the code, not statements about
  rounding, so `ℝ` is the faithful idealisation of the arithmetic the
  source performs.
* Rust `panic!` (the library's failure conditions: DivisionByZero,
  DimensionMismatch, ShapeMismatch) is modelled by returning `none` from
  an `Option`-valued function; `some` is normal return.
* `Vec<Complex>` / `[Complex; N]` are modelled as `List Complex`.  The
  compile-time length equality of the const-generic `ComplexVector<N>`
  type of `src/utils/complex_vector.rs` is carried as an explicit
  length-equality hypothesis where a claim needs it.
-/

namespace QCS

/-- `Complex` from `src/utils/complex_number.rs`: a complex scalar with
`real` and `imaginary` `f64` fields, modelled over `ℝ`. -/
@[ext]
structure Complex where
  real : ℝ
  imaginary : ℝ

/-- `impl Add for Complex`: componentwise addition. -/
def Complex.add (x y : Complex) : Complex :=
  ⟨x.real + y.real, x.imaginary + y.imaginary⟩

/-- `impl Mul for Complex`: `(ac − bd) + (ad + bc)i`. -/
def Complex.mul (x y : Complex) : Complex :=
  ⟨x.real * y.real - x.imaginary * y.imaginary,
   x.real * y.imaginary + x.imaginary * y.real⟩

/-- `impl Neg for Complex`: componentwise negation. -/
def Complex.negate (x : Complex) : Complex :=
  ⟨-x.real, -x.imaginary⟩

/-- `Complex::conjugate`. -/
def Complex.conjugate (x : Complex) : Complex :=
  ⟨x.real, -x.imaginary⟩

/-- `Complex::abs`: `sqrt(real² + imaginary²)`. -/
noncomputable def Complex.abs (x : Complex) : ℝ :=
  Real.sqrt (x.real ^ 2 + x.imaginary ^ 2)

instance instAddComplex : Add Complex := ⟨Complex.add⟩

instance instZeroComplex : Zero Complex := ⟨⟨0, 0⟩⟩

instance : Mul Complex := ⟨Complex.mul⟩

instance : Neg Complex := ⟨Complex.negate⟩

/-- `impl Sub for Complex`: `self + -other`. -/
def Complex.sub (x y : Complex) : Complex := x + -y

instance : Sub Complex := ⟨Complex.sub⟩

@[simp] theorem Complex.add_real (x y : Complex) :
    (x + y).real = x.real + y.real := rfl

@[simp] theorem Complex.add_imaginary (x y : Complex) :
    (x + y).imaginary = x.imaginary + y.imaginary := rfl

@[simp] theorem Complex.zero_real : (0 : Complex).real = 0 := rfl

@[simp] theorem Complex.zero_imaginary : (0 : Complex).imaginary = 0 := rfl

instance : AddCommMonoid Complex :=
  { instAddComplex, instZeroComplex with
    add_assoc := fun a b c => by ext <;> simp <;> ring
    zero_add := fun a => by ext <;> simp
    add_zero := fun a => by ext <;> simp
    add_comm := fun a b => by ext <;> simp <;> ring
    nsmul := nsmulRec
    nsmul_zero := fun _ => rfl
    nsmul_succ := fun _ _ => rfl }

@[simp] theorem Complex.mul_real (x y : Complex) :
    (x * y).real = x.real * y.real - x.imaginary * y.imaginary := rfl

@[simp] theorem Complex.mul_imaginary (x y : Complex) :
    (x * y).imaginary = x.real * y.imaginary + x.imaginary * y.real := rfl

@[simp] theorem Complex.neg_real (x : Complex) : (-x).real = -x.real := rfl

@[simp] theorem Complex.neg_imaginary (x : Complex) :
    (-x).imaginary = -x.imaginary := rfl

@[simp] theorem Complex.conjugate_real (x : Complex) :
    x.conjugate.real = x.real := rfl

@[simp] theorem Complex.conjugate_imaginary (x : Complex) :
    x.conjugate.imaginary = -x.imaginary := rfl

theorem Complex.mk_zero_eq_zero : (⟨0, 0⟩ : Complex) = 0 := rfl

/-- `impl Div for Complex`: panics when the divisor is exactly `(0,0)`,
otherwise conjugate-multiplication division. -/
noncomputable def Complex.divide (x y : Complex) : Option Complex :=
  if y.real = 0 ∧ y.imaginary = 0 then none
  else
    some ⟨(x.real * y.real + x.imaginary * y.imaginary) /
            (y.real ^ 2 + y.imaginary ^ 2),
          (y.real * x.imaginary - x.real * y.imaginary) /
            (y.real ^ 2 + y.imaginary ^ 2)⟩

/-- `impl Sum for Complex`: `iter.fold(Complex::new(0.0, 0.0), |acc, x| acc + x)`. -/
def Complex.sumList (l : List Complex) : Complex :=
  l.foldl (fun acc x => acc + x) ⟨0, 0⟩

/-- A left fold of complex addition starting at `z` is `z` plus the
canonical sum of the list. -/
theorem foldl_add_eq_sum (l : List Complex) (z : Complex) :
    l.foldl (fun acc x => acc + x) z = z + l.sum := by
  induction l generalizing z with
  | nil => simp
  | cons x xs ih => simp [List.foldl_cons, ih (z + x), add_assoc]

/-- A left fold of `acc + f x` starting at `z` is `z` plus the sum of the
mapped list. -/
theorem foldl_add_map_eq_sum {α : Type} (f : α → Complex) (l : List α)
    (z : Complex) :
    l.foldl (fun acc x => acc + f x) z = z + (l.map f).sum := by
  induction l generalizing z with
  | nil => simp
  | cons x xs ih => simp [List.foldl_cons, ih (z + f x), add_assoc]

/-! ## `src/utils/complex_vector.rs`: the const-generic `ComplexVector<N>`.

The Rust type fixes the length `N` at the type level; here the payload is a
`List Complex` and binary operations assume (or hypothesise) equal
lengths. -/

namespace complex_vector

/-- `add_vectors` (const-generic variant): writes `lhs[i] + rhs[i]` for
every `i < N` into a fresh array; on equal-length lists this is exactly
`zipWith (+)`. -/
def add_vectors (v1 v2 : List Complex) : List Complex :=
  List.zipWith (fun x y => x + y) v1 v2

/-- `product_vector_scalar`: `vector.map(|x| x * scalar)`. -/
def product_vector_scalar (v : List Complex) (c : Complex) : List Complex :=
  v.map (fun x => x * c)

/-- `inverse_vector`: `vector.map(|x| -x)`. -/
def inverse_vector (v : List Complex) : List Complex :=
  v.map (fun x => -x)

/-- `impl Sub for ComplexVector`: `self + -other`. -/
def sub_vectors (v1 v2 : List Complex) : List Complex :=
  add_vectors v1 (inverse_vector v2)

/-- `inner_product_vector`: zip, map `x1.conjugate() * x2`, then the
`Sum`-impl fold from `(0,0)`. -/
def inner_product_vector (v1 v2 : List Complex) : Complex :=
  Complex.sumList (List.zipWith (fun x1 x2 => x1.conjugate * x2) v1 v2)

/-- `ComplexVector::norm`: `(self * self).real.sqrt()` where `*` is the
inner product. -/
noncomputable def norm (v : List Complex) : ℝ :=
  Real.sqrt (inner_product_vector v v).real

/-- `ComplexVector::distance_to`: `(self - rhs).norm()`. -/
noncomputable def distance_to (v1 v2 : List Complex) : ℝ :=
  norm (sub_vectors v1 v2)

end complex_vector

/-! ## `src/utils/complex_vectors.rs`: the `Vec`-based `ComplexVector`
with runtime length checks. -/

namespace complex_vectors

/-- `add_vectors` (`Vec` variant): panics (`none`) when the lengths
differ, otherwise the element-wise sum. -/
def add_vectors (v1 v2 : List Complex) : Option (List Complex) :=
  if v1.length ≠ v2.length then none
  else some (List.zipWith (fun x y => x + y) v1 v2)

/-- The string accumulated by `impl Display for ComplexVector` before
slicing: fold of `acc + elem.to_string() + ", "` from the empty string.
The element renderer (`Complex::to_string` formats `f64` text) is a
parameter. -/
def rendered (toStr : Complex → String) (v : List Complex) : String :=
  v.foldl (fun acc c => acc ++ toStr c ++ ", ") ""

/-- `impl Display for ComplexVector`: slices the accumulated string from
`0` to `len − 2` to drop the trailing separator.  When the accumulated
string is shorter than 2 the `usize` subtraction `len - 2` underflows and
the slice panics (`none`). -/
def display (toStr : Complex → String) (v : List Complex) : Option String :=
  if (rendered toStr v).length < 2 then none
  else some ("[" ++ (rendered toStr v).take ((rendered toStr v).length - 2) ++ "]")

end complex_vectors

/-! ## `src/utils/complex_matrix.rs` -/

/-- `ComplexMatrix`: a flat row-major element list with recorded
dimensions. -/
structure ComplexMatrix where
  elements : List Complex
  rows : Nat
  columns : Nat

/-- `ComplexMatrix::dimensions`. -/
def ComplexMatrix.dimensions (m : ComplexMatrix) : Nat × Nat :=
  (m.rows, m.columns)

/-- The construction-time invariant checked by `ComplexMatrix::new`:
`elements.len() == rows * columns`. -/
def ComplexMatrix.wellFormed (m : ComplexMatrix) : Prop :=
  m.elements.length = m.rows * m.columns

instance (m : ComplexMatrix) : Decidable m.wellFormed :=
  inferInstanceAs (Decidable (m.elements.length = m.rows * m.columns))

/-- The `Index<[usize; 2]>` access `elements[row * columns + column]`.
The Rust impl panics out of bounds; all uses below are in bounds, and the
out-of-bounds default here is `(0,0)`. -/
def ComplexMatrix.entry (m : ComplexMatrix) (r c : Nat) : Complex :=
  m.elements.getD (r * m.columns + c) ⟨0, 0⟩

namespace complex_matrix

/-- `add_matrices`: panics (`none`) when the dimensions differ, otherwise
the element-wise sum with the left operand's dimensions. -/
def add_matrices (m1 m2 : ComplexMatrix) : Option ComplexMatrix :=
  if m1.dimensions ≠ m2.dimensions then none
  else some ⟨List.zipWith (fun x y => x + y) m1.elements m2.elements,
             m1.rows, m1.columns⟩

/-- `product_matrix_scalar`: `elements.map(|x| x * scalar)`. -/
def product_matrix_scalar (m : ComplexMatrix) (c : Complex) : ComplexMatrix :=
  ⟨m.elements.map (fun x => x * c), m.rows, m.columns⟩

/-- `inverse_matrix`: `elements.map(|x| -x)`. -/
def inverse_matrix (m : ComplexMatrix) : ComplexMatrix :=
  ⟨m.elements.map (fun x => -x), m.rows, m.columns⟩

/-- The inner accumulation loop of `product_matrices`: a zero-initialised
`sum` updated by `sum += m1[[j,h]] * m2[[h,k]]` for `h` in
`0..m1.columns`. -/
def productCell (m1 m2 : ComplexMatrix) (j k : Nat) : Complex :=
  (List.range m1.columns).foldl
    (fun sum h => sum + m1.entry j h * m2.entry h k) ⟨0, 0⟩

/-- `product_matrices`: panics (`none`) when `m1.columns != m2.rows`,
otherwise fills an `m1.rows × m2.columns` matrix cell by cell (row-major,
`j` outer, `k` inner). -/
def product_matrices (m1 m2 : ComplexMatrix) : Option ComplexMatrix :=
  if m1.columns ≠ m2.rows then none
  else some ⟨(List.range m1.rows).flatMap
               (fun j => (List.range m2.columns).map (productCell m1 m2 j)),
             m1.rows, m2.columns⟩

/-- `impl From<ComplexVector> for ComplexMatrix`: an `N×1` column
matrix. -/
def from_vector (v : List Complex) : ComplexMatrix :=
  ⟨v, v.length, 1⟩

/-- `product_matrix_vector`: `matrix * ComplexMatrix::from(vector)`, the
resulting single-column matrix's elements reinterpreted as a vector. -/
def product_matrix_vector (m : ComplexMatrix) (v : List Complex) :
    Option (List Complex) :=
  (product_matrices m (from_vector v)).map ComplexMatrix.elements

/-- The classic row-dot-product definition of matrix×vector, written from
the spec's words (`multiply_vector(m, v)` equals "a vector of length R
whose i-th element is the sum over h of m[i,h] * v[h]") for comparison
with `product_matrix_vector`. -/
def classic_mat_vec (m : ComplexMatrix) (v : List Complex) : List Complex :=
  (List.range m.rows).map
    (fun i => ∑ h in Finset.range v.length, m.entry i h * v.getD h ⟨0, 0⟩)

end complex_matrix

/-! ## Supporting lemmas -/

/-- Componentwise description of a list sum: real part. -/
theorem sum_real (l : List Complex) :
    l.sum.real = (l.map Complex.real).sum := by
  induction l with
  | nil => rfl
  | cons x xs ih => simp [ih]

/-- Componentwise description of a list sum: imaginary part. -/
theorem sum_imaginary (l : List Complex) :
    l.sum.imaginary = (l.map Complex.imaginary).sum := by
  induction l with
  | nil => rfl
  | cons x xs ih => simp [ih]

/-- `Finset.range` sums agree with sums of mapped `List.range`. -/
theorem finset_sum_range (n : Nat) (f : Nat → Complex) :
    ∑ h in Finset.range n, f h = ((List.range n).map f).sum := rfl

/-- Entrywise description of `zipWith (+)`. -/
theorem zipWith_add_getD (v1 v2 : List Complex) (i : Nat)
    (h1 : i < v1.length) (h2 : i < v2.length) :
    (List.zipWith (fun x y => x + y) v1 v2).getD i ⟨0, 0⟩ =
      v1.getD i ⟨0, 0⟩ + v2.getD i ⟨0, 0⟩ := by
  induction v1 generalizing v2 i with
  | nil => simp at h1
  | cons x xs ih =>
    cases v2 with
    | nil => simp at h2
    | cons y ys =>
      cases i with
      | zero => rfl
      | succ n =>
        simpa using ih ys n (by simpa using h1) (by simpa using h2)

/-- Adding the all-zero list of matching length is the identity. -/
theorem zipWith_add_replicate_zero (l : List Complex) :
    List.zipWith (fun x y => x + y) l
      (List.replicate l.length (⟨0, 0⟩ : Complex)) = l := by
  induction l with
  | nil => rfl
  | cons x xs ih =>
    simp only [List.length_cons, List.replicate_succ, List.zipWith_cons_cons,
      ih]
    rw [Complex.mk_zero_eq_zero, add_zero]

/-- A `flatMap` of rows of constant width `C` over `List.range R` has
`R * C` elements. -/
theorem flatMap_range_length (R C : Nat) (f : Nat → Nat → Complex) :
    ((List.range R).flatMap
      (fun j => (List.range C).map (f j))).length = R * C := by
  induction R with
  | zero => simp
  | succ R ih =>
    rw [List.range_succ, List.flatMap_append, List.length_append, ih]
    simp [Nat.succ_mul]

/-- Row-major indexing into a `flatMap` of rows of constant width: the
element at flat index `j * C + k` is the `k`-th entry of row `j`. -/
theorem flatMap_range_getD (R C : Nat) (f : Nat → Nat → Complex)
    (j k : Nat) (hj : j < R) (hk : k < C) (d : Complex) :
    ((List.range R).flatMap
      (fun j => (List.range C).map (f j))).getD (j * C + k) d = f j k := by
  induction R with
  | zero => omega
  | succ R ih =>
    rw [List.range_succ, List.flatMap_append]
    rcases Nat.lt_succ_iff_lt_or_eq.mp hj with h | h
    · rw [List.getD_append]
      · exact ih h
      rw [flatMap_range_length]
      have hstep : j * C + k < (j + 1) * C := by
        rw [Nat.succ_mul]; omega
      exact lt_of_lt_of_le hstep (Nat.mul_le_mul_right C h)
    · subst h
      rw [List.getD_append_right]
      · rw [flatMap_range_length, Nat.add_sub_cancel_left]
        simp only [List.flatMap_cons, List.flatMap_nil, List.append_nil]
        rw [List.getD_eq_getElem?_getD, List.getElem?_map,
          List.getElem?_range hk]
        rfl
      · rw [flatMap_range_length]
        exact Nat.le_add_right _ _

/-- A `flatMap` producing singleton lists is a `map`. -/
theorem flatMap_singleton_eq_map {α β : Type} (l : List α) (g : α → β) :
    l.flatMap (fun x => [g x]) = l.map g := by
  induction l with
  | nil => rfl
  | cons x xs ih => simp [List.flatMap_cons, ih]

/-- The per-cell accumulation loop of `product_matrices` computes the
mathematical dot-product sum. -/
theorem productCell_eq_sum (m1 m2 : ComplexMatrix) (j k : Nat) :
    complex_matrix.productCell m1 m2 j k =
      ∑ h in Finset.range m1.columns, m1.entry j h * m2.entry h k := by
  rw [complex_matrix.productCell,
    foldl_add_map_eq_sum (fun h => m1.entry j h * m2.entry h k),
    Complex.mk_zero_eq_zero, zero_add, finset_sum_range]

/-- The self-inner-product is invariant under elementwise negation. -/
theorem inner_product_inverse_self (w : List Complex) :
    complex_vector.inner_product_vector (complex_vector.inverse_vector w)
        (complex_vector.inverse_vector w) =
      complex_vector.inner_product_vector w w := by
  unfold complex_vector.inner_product_vector complex_vector.inverse_vector
  rw [List.zipWith_same, List.zipWith_same, List.map_map]
  congr 1
  apply List.map_congr_left
  intro x _
  show (-x).conjugate * (-x) = x.conjugate * x
  ext <;> simp

/-- `v2 - v1` is the elementwise negation of `v1 - v2`. -/
theorem sub_vectors_antisymm (v1 v2 : List Complex) :
    complex_vector.sub_vectors v2 v1 =
      complex_vector.inverse_vector (complex_vector.sub_vectors v1 v2) := by
  induction v1 generalizing v2 with
  | nil => cases v2 <;> rfl
  | cons x xs ih =>
    cases v2 with
    | nil => rfl
    | cons y ys =>
      show (y + -x) :: complex_vector.sub_vectors ys xs =
        -(x + -y) :: complex_vector.inverse_vector
          (complex_vector.sub_vectors xs ys)
      rw [ih ys]
      congr 1
      ext <;> simp

/-- The accumulated display string only grows along the fold. -/
theorem rendered_foldl_length_le (toStr : Complex → String)
    (l : List Complex) :
    ∀ acc : String,
      acc.length ≤ (l.foldl (fun a c => a ++ toStr c ++ ", ") acc).length := by
  induction l with
  | nil => intro acc; simp
  | cons c cs ih =>
    intro acc
    refine le_trans ?_ (ih (acc ++ toStr c ++ ", "))
    rw [String.length_append, String.length_append]
    omega

/-! ## The claims -/

/-- C1: `multiply(m1, m2)` fails with ShapeMismatch exactly when
`m1.columns ≠ m2.rows`; otherwise the result has shape
`(m1.rows, m2.columns)` and cell `[j,k]` is `Σ_h m1[j,h] * m2[h,k]`
(the zero-initialised left-to-right accumulation of the code computes
exactly this sum). -/
theorem matrix_product_spec (m1 m2 : ComplexMatrix)
    (h1 : m1.wellFormed) (h2 : m2.wellFormed) :
    (m1.columns = m2.rows →
      ∃ m3, complex_matrix.product_matrices m1 m2 = some m3 ∧
        m3.rows = m1.rows ∧ m3.columns = m2.columns ∧ m3.wellFormed ∧
        ∀ j, j < m1.rows → ∀ k, k < m2.columns →
          m3.entry j k =
            ∑ h in Finset.range m1.columns, m1.entry j h * m2.entry h k) ∧
    (m1.columns ≠ m2.rows →
      complex_matrix.product_matrices m1 m2 = none) := by
  constructor
  · intro hc
    refine ⟨⟨(List.range m1.rows).flatMap
        (fun j => (List.range m2.columns).map
          (complex_matrix.productCell m1 m2 j)), m1.rows, m2.columns⟩,
      ?_, rfl, rfl, ?_, ?_⟩
    · rw [complex_matrix.product_matrices, if_neg (by simp [hc])]
    · exact flatMap_range_length m1.rows m2.columns _
    · intro j hj k hk
      show ((List.range m1.rows).flatMap
        (fun j => (List.range m2.columns).map
          (complex_matrix.productCell m1 m2 j))).getD
            (j * m2.columns + k) ⟨0, 0⟩ = _
      rw [flatMap_range_getD m1.rows m2.columns _ j k hj hk]
      exact productCell_eq_sum m1 m2 j k
  · intro hc
    rw [complex_matrix.product_matrices, if_pos hc]

/-- C1 witness: a 1×1 by 2×2 product fails the shape check. -/
theorem matrix_product_spec_witness :
    complex_matrix.product_matrices ⟨[⟨1, 0⟩], 1, 1⟩
      ⟨[⟨1, 0⟩, ⟨2, 0⟩, ⟨3, 0⟩, ⟨4, 0⟩], 2, 2⟩ = none :=
  (matrix_product_spec ⟨[⟨1, 0⟩], 1, 1⟩ ⟨[⟨1, 0⟩, ⟨2, 0⟩, ⟨3, 0⟩, ⟨4, 0⟩], 2, 2⟩
    (by decide) (by decide)).2 (by decide)

/-- C2: `multiply_vector(m, v)` — `m * from_vector(v)` with the resulting
column matrix's elements reinterpreted as a vector — equals the classic
row-dot-product definition. -/
theorem matrix_vector_refinement (m : ComplexMatrix) (v : List Complex)
    (h : m.columns = v.length) :
    complex_matrix.product_matrix_vector m v =
      some (complex_matrix.classic_mat_vec m v) := by
  unfold complex_matrix.product_matrix_vector
    complex_matrix.product_matrices
  rw [if_neg (by simp [complex_matrix.from_vector, h])]
  show some ((List.range m.rows).flatMap
    (fun j => (List.range 1).map
      (complex_matrix.productCell m (complex_matrix.from_vector v) j))) = _
  have hr1 : List.range 1 = [0] := rfl
  rw [hr1]
  simp only [List.map_cons, List.map_nil]
  rw [flatMap_singleton_eq_map]
  unfold complex_matrix.classic_mat_vec
  apply congrArg
  apply List.map_congr_left
  intro j _
  rw [productCell_eq_sum]
  rw [h]
  apply Finset.sum_congr rfl
  intro i _
  apply congrArg
  show v.getD (i * 1 + 0) ⟨0, 0⟩ = v.getD i ⟨0, 0⟩
  rw [Nat.add_zero, Nat.mul_one]

/-- C2 witness: `[[1,2],[3,4]] * [1,2]` follows the row-dot-product
definition. -/
theorem matrix_vector_refinement_witness :
    complex_matrix.product_matrix_vector
      ⟨[⟨1, 0⟩, ⟨2, 0⟩, ⟨3, 0⟩, ⟨4, 0⟩], 2, 2⟩ [⟨1, 0⟩, ⟨2, 0⟩] =
      some (complex_matrix.classic_mat_vec
        ⟨[⟨1, 0⟩, ⟨2, 0⟩, ⟨3, 0⟩, ⟨4, 0⟩], 2, 2⟩ [⟨1, 0⟩, ⟨2, 0⟩]) :=
  matrix_vector_refinement ⟨[⟨1, 0⟩, ⟨2, 0⟩, ⟨3, 0⟩, ⟨4, 0⟩], 2, 2⟩
    [⟨1, 0⟩, ⟨2, 0⟩] (by decide)

/-- C3: complex division fails with DivisionByZero exactly when the
divisor is `(0,0)` (exact equality on both components); for any other
divisor it returns the conjugate-multiplication quotient. -/
theorem divide_spec (x y : Complex) :
    (Complex.divide x y = none ↔ y.real = 0 ∧ y.imaginary = 0) ∧
    (¬(y.real = 0 ∧ y.imaginary = 0) →
      Complex.divide x y =
        some ⟨(x.real * y.real + x.imaginary * y.imaginary) /
                (y.real ^ 2 + y.imaginary ^ 2),
              (y.real * x.imaginary - x.real * y.imaginary) /
                (y.real ^ 2 + y.imaginary ^ 2)⟩) := by
  unfold Complex.divide
  by_cases h : y.real = 0 ∧ y.imaginary = 0
  · rw [if_pos h]
    exact ⟨⟨fun _ => h, fun _ => rfl⟩, fun hn => absurd h hn⟩
  · rw [if_neg h]
    refine ⟨⟨fun hx => by simp at hx, fun hy => absurd hy h⟩, fun _ => rfl⟩

/-- C3 witness: dividing by `1 + 0i` succeeds with the documented
formula. -/
theorem divide_spec_witness :
    Complex.divide ⟨2, 3⟩ ⟨1, 0⟩ =
      some ⟨(2 * 1 + 3 * 0) / (1 ^ 2 + 0 ^ 2),
            (1 * 3 - 2 * 0) / (1 ^ 2 + 0 ^ 2)⟩ :=
  (divide_spec ⟨2, 3⟩ ⟨1, 0⟩).2 (by simp)

/-- C4: the self-inner-product `Σ conjugate(v[i]) * v[i]` has imaginary
part exactly 0, and `norm(v)` is the square root of its real part. -/
theorem inner_self_real_and_norm (v : List Complex) :
    (complex_vector.inner_product_vector v v).imaginary = 0 ∧
    complex_vector.norm v =
      Real.sqrt (complex_vector.inner_product_vector v v).real := by
  refine ⟨?_, rfl⟩
  unfold complex_vector.inner_product_vector Complex.sumList
  rw [List.zipWith_same, foldl_add_eq_sum, Complex.mk_zero_eq_zero,
    zero_add, sum_imaginary]
  apply List.sum_eq_zero
  intro x hx
  rw [List.map_map] at hx
  obtain ⟨y, _, hy⟩ := List.mem_map.mp hx
  rw [← hy]
  show (y.conjugate * y).imaginary = 0
  simp
  ring

/-- C5: `distance_to` is exactly symmetric on equal-length vectors,
because `norm(x) = norm(-x)` and the difference vectors are elementwise
negations of one another. -/
theorem distance_symm (v1 v2 : List Complex)
    (h : v1.length = v2.length) :
    complex_vector.distance_to v1 v2 = complex_vector.distance_to v2 v1 := by
  unfold complex_vector.distance_to complex_vector.norm
  rw [sub_vectors_antisymm v1 v2, inner_product_inverse_self]

/-- C5 witness: symmetry at a concrete equal-length pair. -/
theorem distance_symm_witness :
    complex_vector.distance_to [⟨3, 0⟩] [⟨2, 0⟩] =
      complex_vector.distance_to [⟨2, 0⟩] [⟨3, 0⟩] :=
  distance_symm [⟨3, 0⟩] [⟨2, 0⟩] (by decide)

/-- C6: additive identities — `x + (0,0) = x` for scalars, adding the
all-zero vector of the same length returns the vector, and adding the
all-zero matrix of the same shape returns the matrix. -/
theorem additive_identity :
    (∀ x : Complex, x + (⟨0, 0⟩ : Complex) = x) ∧
    (∀ v : List Complex,
      complex_vector.add_vectors v (List.replicate v.length ⟨0, 0⟩) = v) ∧
    (∀ m : ComplexMatrix, m.wellFormed →
      complex_matrix.add_matrices m
        ⟨List.replicate (m.rows * m.columns) ⟨0, 0⟩, m.rows, m.columns⟩ =
        some m) := by
  refine ⟨fun x => by rw [Complex.mk_zero_eq_zero, add_zero],
    fun v => zipWith_add_replicate_zero v, fun m hm => ?_⟩
  cases m with
  | mk es r c =>
    have hm' : es.length = r * c := hm
    unfold complex_matrix.add_matrices
    rw [if_neg (by simp [ComplexMatrix.dimensions])]
    rw [← hm', zipWith_add_replicate_zero]

/-- C6 witness: the 1×1 matrix `[5+6i]` plus the 1×1 zero matrix is
itself. -/
theorem additive_identity_witness :
    complex_matrix.add_matrices ⟨[⟨5, 6⟩], 1, 1⟩
      ⟨List.replicate (1 * 1) ⟨0, 0⟩, 1, 1⟩ = some ⟨[⟨5, 6⟩], 1, 1⟩ :=
  additive_identity.2.2 ⟨[⟨5, 6⟩], 1, 1⟩ (by decide)

/-- C7: `Vec`-based vector addition fails with DimensionMismatch exactly
when the lengths differ, and returns the element-wise sum otherwise. -/
theorem vector_add_spec (v1 v2 : List Complex) :
    (v1.length ≠ v2.length → complex_vectors.add_vectors v1 v2 = none) ∧
    (v1.length = v2.length →
      ∃ r, complex_vectors.add_vectors v1 v2 = some r ∧
        r.length = v1.length ∧
        ∀ i, i < r.length →
          r.getD i ⟨0, 0⟩ = v1.getD i ⟨0, 0⟩ + v2.getD i ⟨0, 0⟩) := by
  constructor
  · intro h
    rw [complex_vectors.add_vectors, if_pos h]
  · intro h
    refine ⟨List.zipWith (fun x y => x + y) v1 v2, ?_, ?_, ?_⟩
    · rw [complex_vectors.add_vectors, if_neg (by simp [h])]
    · rw [List.length_zipWith, h, Nat.min_self]
    · intro i hi
      rw [List.length_zipWith] at hi
      exact zipWith_add_getD v1 v2 i (lt_of_lt_of_le hi (Nat.min_le_left _ _))
        (lt_of_lt_of_le hi (Nat.min_le_right _ _))

/-- C7 witness: adding a length-2 vector to a length-3 vector fails. -/
theorem vector_add_spec_witness :
    complex_vectors.add_vectors [⟨6, -4⟩, ⟨7, 3⟩]
      [⟨6, -4⟩, ⟨7, 3⟩, ⟨4, -8⟩] = none :=
  (vector_add_spec [⟨6, -4⟩, ⟨7, 3⟩] [⟨6, -4⟩, ⟨7, 3⟩, ⟨4, -8⟩]).1
    (by decide)

/-- C8: summing complex numbers is the left fold with starting value
`(0,0)`; the empty sum is exactly `(0,0)` (and the fold agrees with the
canonical monoid sum). -/
theorem sum_fold_spec :
    Complex.sumList [] = (⟨0, 0⟩ : Complex) ∧
    (∀ l : List Complex,
      Complex.sumList l = l.foldl (fun acc x => acc + x) ⟨0, 0⟩) ∧
    (∀ l : List Complex, Complex.sumList l = l.sum) := by
  refine ⟨rfl, fun l => rfl, fun l => ?_⟩
  rw [Complex.sumList, foldl_add_eq_sum, Complex.mk_zero_eq_zero, zero_add]

/-- C9: every matrix-producing operation preserves the invariant
`elements.length = rows * columns`. -/
theorem matrix_ops_preserve_invariant (m1 m2 : ComplexMatrix)
    (c : Complex) (v : List Complex)
    (h1 : m1.wellFormed) (h2 : m2.wellFormed) :
    (∀ m3, complex_matrix.add_matrices m1 m2 = some m3 → m3.wellFormed) ∧
    (complex_matrix.product_matrix_scalar m1 c).wellFormed ∧
    (complex_matrix.inverse_matrix m1).wellFormed ∧
    (∀ m3, complex_matrix.product_matrices m1 m2 = some m3 →
      m3.wellFormed) ∧
    (complex_matrix.from_vector v).wellFormed := by
  refine ⟨?_, ?_, ?_, ?_, ?_⟩
  · intro m3 h3
    rw [complex_matrix.add_matrices] at h3
    split at h3
    · exact absurd h3 (by simp)
    · rename_i hdim
      have hd : m1.dimensions = m2.dimensions := not_not.mp hdim
      have hr : m1.rows = m2.rows := congrArg Prod.fst hd
      have hc : m1.columns = m2.columns := congrArg Prod.snd hd
      obtain rfl : _ = m3 := Option.some_injective _ h3
      show (List.zipWith _ m1.elements m2.elements).length = _
      rw [List.length_zipWith, h1, h2, ← hr, ← hc, Nat.min_self]
  · simpa [complex_matrix.product_matrix_scalar,
      ComplexMatrix.wellFormed] using h1
  · simpa [complex_matrix.inverse_matrix,
      ComplexMatrix.wellFormed] using h1
  · intro m3 h3
    rw [complex_matrix.product_matrices] at h3
    split at h3
    · exact absurd h3 (by simp)
    · obtain rfl : _ = m3 := Option.some_injective _ h3
      exact flatMap_range_length m1.rows m2.columns _
  · show v.length = v.length * 1
    rw [Nat.mul_one]

/-- C9 witness: scalar multiplication of a well-formed 1×1 matrix is
well-formed. -/
theorem matrix_ops_preserve_invariant_witness :
    (complex_matrix.product_matrix_scalar ⟨[⟨1, 2⟩], 1, 1⟩
      ⟨3, 4⟩).wellFormed :=
  (matrix_ops_preserve_invariant ⟨[⟨1, 2⟩], 1, 1⟩ ⟨[⟨0, 0⟩], 1, 1⟩
    ⟨3, 4⟩ [] (by decide) (by decide)).2.1

/-- C10: rendering a length-0 vector fails (the slice `0..len-2` is
invalid for the empty accumulated string), while rendering any non-empty
vector succeeds. -/
theorem display_empty_fails (toStr : Complex → String) :
    complex_vectors.display toStr [] = none ∧
    ∀ (c : Complex) (cs : List Complex),
      (complex_vectors.display toStr (c :: cs)).isSome = true := by
  constructor
  · rfl
  · intro c cs
    have hlen : ¬(complex_vectors.rendered toStr (c :: cs)).length < 2 := by
      have hgrow := rendered_foldl_length_le toStr cs ("" ++ toStr c ++ ", ")
      have hcomma : (", " : String).length = 2 := rfl
      have hnil : ("" : String).length = 0 := rfl
      have hstart : ("" ++ toStr c ++ ", ").length =
          (toStr c).length + 2 := by
        rw [String.length_append, String.length_append, hnil, hcomma]
        omega
      rw [complex_vectors.rendered, List.foldl_cons]
      omega
    rw [complex_vectors.display, if_neg hlen]
    rfl

end QCS
